import Mathlib

/-
Verification of the call-graph mapper (mapper.py).

The data model and operations below are a shallow embedding of the source:
FuncNode (identity triple, depth, edge sets), the graph dictionary keyed by
the identity triple, node registration, edge recording, call resolution,
the import crawling, the reduced networkx graph, and the textual report.
-/

set_option linter.unusedVariables false

/-- Identity-bearing data of a FuncNode object: the identity triple
(filename, class_name, name) together with the depth recorded at
construction. Edge sets store these snapshots of the node objects added. -/
structure NodeData where
  filename : String
  class_name : String
  name : String
  depth : Nat
deriving DecidableEq, Repr

/-- The identity triple used by FuncNode eq and hash. -/
def NodeData.triple (n : NodeData) : String × String × String :=
  (n.filename, n.class_name, n.name)

/-- is_secondary on stored node data: depth greater than zero. -/
def NodeData.is_secondary (n : NodeData) : Bool :=
  decide (0 < n.depth)

/-- A FuncNode: identity data plus the two mutable edge sets
(dependencies: nodes this node calls; dependents: nodes calling it)
and the optional reference to the originating syntax-tree node. -/
structure FuncNode where
  data : NodeData
  dependencies : List NodeData
  dependents : List NodeData
  ast_ref : Option Nat
deriving DecidableEq, Repr

/-- The identity triple of a FuncNode. -/
def FuncNode.triple (n : FuncNode) : String × String × String :=
  n.data.triple

/-- Python eq on FuncNode: compares only the identity triple
(depth, edge sets and the ast reference are ignored). -/
def FuncNode.pyEq (a b : FuncNode) : Bool :=
  decide (a.data.filename = b.data.filename) &&
  decide (a.data.class_name = b.data.class_name) &&
  decide (a.data.name = b.data.name)

/-- Triples of a list of stored node data. -/
def dataTriples (l : List NodeData) : List (String × String × String) :=
  l.map NodeData.triple

/-- Python set.add on an edge set: node objects hash and compare by the
identity triple, so adding an element whose triple is already present is
a no-op; a new element is appended. -/
def insertData (l : List NodeData) (d : NodeData) : List NodeData :=
  if d.triple ∈ dataTriples l then l else l ++ [d]

/-- FuncNode.add_edge: adds the given node to dependencies when the
dependency flag is set, otherwise to dependents. -/
def FuncNode.add_edge (n : FuncNode) (edge : NodeData) (dependency : Bool) : FuncNode :=
  if dependency then { n with dependencies := insertData n.dependencies edge }
  else { n with dependents := insertData n.dependents edge }

/-- The triples of the nodes currently registered in the graph. -/
def triples (g : List FuncNode) : List (String × String × String) :=
  g.map FuncNode.triple

/-- ASTParser.add_node: inserts the node into the graph dictionary unless a
node with the same identity triple (the dictionary key) is already present.
The dictionary preserves insertion order, modelled by the list order. -/
def add_node (g : List FuncNode) (n : FuncNode) : List FuncNode :=
  if n.triple ∈ triples g then g else g ++ [n]

/-- Mutation of the graph-stored node with the given triple. -/
def graphModify (g : List FuncNode) (t : String × String × String)
    (f : FuncNode → FuncNode) : List FuncNode :=
  g.map (fun n => if n.triple = t then f n else n)

/-- The depth-1 placeholder fabricated by EdgeDetector.add_edge when no
candidate was found: Builtins/System for a built-in name, else
Unknown/Unknown. -/
def mkPlaceholder (is_built_in : Bool) (dependency : String) : FuncNode :=
  if is_built_in then ⟨⟨"System", "Builtins", dependency, 1⟩, [], [], none⟩
  else ⟨⟨"Unknown", "Unknown", dependency, 1⟩, [], [], none⟩

/-- EdgeDetector.add_edge: fabricates a placeholder callee when none was
resolved, registers both endpoints, then records the edge in both
directions on the graph-stored nodes (looked up by triple). -/
def detector_add_edge (g : List FuncNode) (is_built_in : Bool) (dependency : String)
    (this_node : FuncNode) (dependency_node : Option FuncNode) : List FuncNode :=
  let dep_node := match dependency_node with
    | some d => d
    | none => mkPlaceholder is_built_in dependency
  let g1 := add_node g this_node
  let g2 := add_node g1 dep_node
  let g3 := graphModify g2 this_node.triple (fun n => n.add_edge dep_node.data true)
  graphModify g3 dep_node.triple (fun n => n.add_edge this_node.data false)

/-- The candidate test of EdgeDetector.visit_Call: the name of the node equals
the call target, or the node is a constructor whose class equals it. -/
def matchesName (dependency : String) (n : FuncNode) : Bool :=
  decide (n.data.name = dependency) ||
  (decide (n.data.name = "__init__") && decide (n.data.class_name = dependency))

/-- FuncNode.is_identifier: the qualifier equals the filename or
class name of the node (the source tests the filename twice). -/
def FuncNode.is_identifier (n : FuncNode) (identifier : String) : Bool :=
  decide (n.data.filename = identifier) || decide (n.data.class_name = identifier) ||
  decide (n.data.filename = identifier)

/-- Python set.add on a set of strings. -/
def insertStr (l : List String) (s : String) : List String :=
  if s ∈ l then l else l ++ [s]

/-- Loop state of the candidate search in EdgeDetector.visit_Call:
the selected dependency node, the already_found flag, and the
unsure_nodes set being accumulated. -/
structure ResolveAcc where
  dependency_node : Option FuncNode
  already_found : Bool
  unsure_nodes : List String
deriving DecidableEq, Repr

/-- One iteration of the candidate-search loop of visit_Call. On a name
match with a previously found candidate, the first conditional may replace
the candidate by a more exact match; the second conditional (a separate
statement, not chained to the first) either keeps silent when the new node
fails the qualifier while the current one passes it, or otherwise records
the call site into unsure_nodes. -/
def resolveStep (dependency home unsure_str : String) (acc : ResolveAcc) (n : FuncNode) :
    ResolveAcc :=
  if matchesName dependency n then
    if acc.already_found then
      match acc.dependency_node with
      | some dn =>
        let dn2 := if n.is_identifier home && !(dn.is_identifier home) then n else dn
        if !(n.is_identifier home) && dn2.is_identifier home then
          { dependency_node := some dn2, already_found := true,
            unsure_nodes := acc.unsure_nodes }
        else
          { dependency_node := some dn2, already_found := true,
            unsure_nodes := insertStr acc.unsure_nodes unsure_str }
      | none => acc
    else
      { dependency_node := some n, already_found := true, unsure_nodes := acc.unsure_nodes }
  else acc

/-- The candidate-search loop of visit_Call over the graph dictionary in
insertion order. The caller passes the initial state: no candidate, the
already_found flag cleared, and the current unsure_nodes set. -/
def resolveCall (g : List FuncNode) (dependency home unsure_str : String)
    (init : ResolveAcc) : ResolveAcc :=
  g.foldl (resolveStep dependency home unsure_str) init

/-- Search state of a run: the graph and the three diagnostics sets. -/
structure SearchState where
  graph : List FuncNode
  crawled_imports : List String
  uncrawled : List String
  unsure_nodes : List String
deriving DecidableEq, Repr

/-- The configuration options consumed by the core. -/
structure Config where
  inverse : Bool
  built_ins : Bool
  raw : Bool
deriving DecidableEq, Repr

/-- The shape of the func field of a call expression: an attribute access
with its method name and, when syntactically available, the simple
identifier of the receiver, or a bare name (none when the AST offers no
id at all). -/
inductive CallFunc where
  | attr (name : String) (receiver : Option String)
  | bare (name : Option String)
deriving DecidableEq, Repr

/-- Traversal context of an AST visitor: current filename (base name),
enclosing class and enclosing function. -/
structure EDContext where
  current_filename : String
  current_class : String
  current_function : String
deriving DecidableEq, Repr

/-- Target-name and qualifier extraction at the top of visit_Call:
attribute calls use the method name with the receiver id (falling back to
the enclosing class), bare calls use the name with the current filename;
none signals the AST-error early return. -/
def extractTarget (func : CallFunc) (ctx : EDContext) : Option (String × String) :=
  match func with
  | .attr name receiver =>
    match receiver with
    | some r => some (name, r)
    | none => some (name, ctx.current_class)
  | .bare (some name) => some (name, ctx.current_filename)
  | .bare none => none

/-- The search for the node of the enclosing function in the visit_Call
loop: the last graph node whose stored syntax reference is this call. -/
def findThisNode (g : List FuncNode) (callId : Nat) : Option FuncNode :=
  g.foldl (fun acc n => if n.ast_ref = some callId then some n else acc) none

/-- The processing path of EdgeDetector.visit_Call once the call is not
skipped: run the candidate search over the graph, resolve the caller node
(falling back to a fresh node, renaming an empty enclosing function to
__main__ in the persistent context), and record the edge. -/
def processCall (st : SearchState) (ctx : EDContext) (dependency home : String)
    (callId : Nat) (is_built_in : Bool) : SearchState × EDContext :=
  let unsure_str := ctx.current_filename ++ ":" ++ ctx.current_function ++ "(" ++
    dependency ++ ")"
  let acc := resolveCall st.graph dependency home unsure_str
    ⟨none, false, st.unsure_nodes⟩
  let found := findThisNode st.graph callId
  let ctx2 := match found with
    | some _ => ctx
    | none =>
      if ctx.current_function = "" then { ctx with current_function := "__main__" }
      else ctx
  let this_node := match found with
    | some n => n
    | none =>
      ⟨⟨ctx2.current_filename, ctx2.current_class, ctx2.current_function, 0⟩,
        [], [], some callId⟩
  let g2 := detector_add_edge st.graph is_built_in dependency this_node
    acc.dependency_node
  ({ st with graph := g2, unsure_nodes := acc.unsure_nodes }, ctx2)

/-- EdgeDetector.visit_Call on one call expression: extract target and
qualifier, classify as built-in against the given builtins list, skip the
call entirely when built-in and the built-ins option is unset; otherwise
run the processing path. -/
def visit_Call_step (builtins : List String) (cfg : Config) (st : SearchState)
    (ctx : EDContext) (func : CallFunc) (callId : Nat) : SearchState × EDContext :=
  match extractTarget func ctx with
  | none => (st, ctx)
  | some (dependency, home) =>
    let is_built_in : Bool := decide (dependency ∈ builtins)
    if !is_built_in || cfg.built_ins then
      processCall st ctx dependency home callId is_built_in
    else (st, ctx)

/-- A definition registered by NodeCreator while walking one file: a class
definition (registered as its constructor) or a function definition
carrying a reference to its syntax node. -/
inductive DefEntry where
  | classDef (class_name : String)
  | funcDef (class_name name : String) (astId : Nat)
deriving DecidableEq, Repr

/-- The node NodeCreator registers for one definition found in a file at
the given crawl depth. -/
def defNode (filename : String) (depth : Nat) : DefEntry → FuncNode
  | .classDef c => ⟨⟨filename, c, "__init__", depth⟩, [], [], none⟩
  | .funcDef c n astId => ⟨⟨filename, c, n, depth⟩, [], [], some astId⟩

/-- One source file as seen by the collector: its base name and the
definitions its tree walk registers, in registration order. -/
structure SrcFile where
  filename : String
  defs : List DefEntry
deriving DecidableEq, Repr

/-- NodeCreator over one file: registers a node for every definition at
the depth of the file. -/
def collectFile (g : List FuncNode) (f : SrcFile) (depth : Nat) : List FuncNode :=
  f.defs.foldl (fun g d => add_node g (defNode f.filename depth d)) g

/-- The collection phase over the requested files, each at depth 0. -/
def collectAll (files : List SrcFile) : List FuncNode :=
  files.foldl (fun g f => collectFile g f 0) []

/-- Outcome of one import attempt: importlib fails to find the module, the
module is found but exposes no locatable source file, or the module is
located and parsed into a source file to collect. -/
inductive ImportOutcome where
  | importError
  | noFile
  | ok (file : SrcFile)
deriving DecidableEq, Repr

/-- The while loop of NodeCreator.crawl_import building the dotted folder
prefix: starting at index x, appends every nonempty folder segment strictly
before the last one, each followed by a dot. -/
def folderConcat (folders : List String) (x : Nat) : String :=
  if h : x < folders.length - 1 then
    (if folders.get ⟨x, by omega⟩ = "" then "" else folders.get ⟨x, by omega⟩ ++ ".") ++
      folderConcat folders (x + 1)
  else ""
termination_by folders.length - x

/-- The dotted module name tried at a given folder_index:
the folder prefix built from index (length - folder_index) onward,
followed by the imported reference name. -/
def attemptName (folders : List String) (refName : String) (folder_index : Nat) : String :=
  folderConcat folders (folders.length - folder_index) ++ refName

/-- State touched by import crawling: the graph and the crawled and
uncrawled diagnostic sets. -/
structure CrawlState where
  graph : List FuncNode
  crawled_imports : List String
  uncrawled : List String
deriving DecidableEq, Repr

/-- NodeCreator.crawl_import: tries the dotted name at the current
folder_index; on success collects the definitions of the located file at
depth recursive + 1 and records the dotted name in crawled_imports; on a
failed import it retries with folder_index + 1 while folder_index is below
the segment count, else records the reference name in uncrawled; a module
with no locatable source records the reference name in uncrawled. -/
def crawl_import (env : String → ImportOutcome) (st : CrawlState) (refName : String)
    (folders : List String) (recursive : Nat) (folder_index : Nat) : CrawlState :=
  let imported_name := attemptName folders refName folder_index
  match env imported_name with
  | .ok file =>
    { st with graph := collectFile st.graph file (recursive + 1),
              crawled_imports := insertStr st.crawled_imports imported_name }
  | .importError =>
    if h : folder_index < folders.length then
      crawl_import env st refName folders recursive (folder_index + 1)
    else
      { st with uncrawled := insertStr st.uncrawled refName }
  | .noFile => { st with uncrawled := insertStr st.uncrawled refName }
termination_by folders.length + 1 - folder_index

/-- get_string: the concatenation filename ++ class_name ++ name, the sort
key of the textual report. -/
def get_string (n : NodeData) : String :=
  n.filename ++ n.class_name ++ n.name

/-- The printed label of a node: filename colon class_name dot name. -/
def pyRepr (n : NodeData) : String :=
  n.filename ++ ":" ++ n.class_name ++ "." ++ n.name

/-- FuncNode.is_hidden: positive depth and both edge sets empty. -/
def is_hidden (n : FuncNode) : Bool :=
  decide (0 < n.data.depth) && n.dependencies.isEmpty && n.dependents.isEmpty

/-- FuncNode.is_secondary: positive depth. -/
def is_secondary (n : FuncNode) : Bool :=
  decide (0 < n.data.depth)

/-- FuncNode.get_edges: dependencies when the dependency flag is set, else
dependents. -/
def get_edges (n : FuncNode) (dependency : Bool) : List NodeData :=
  if dependency then n.dependencies else n.dependents

/-- The sort order of the report: comparison of get_string keys. -/
def strLeData (a b : NodeData) : Prop :=
  get_string a ≤ get_string b

instance : DecidableRel strLeData :=
  fun a b => inferInstanceAs (Decidable (get_string a ≤ get_string b))

/-- The sort order of the report on graph nodes. -/
def strLeNode (a b : FuncNode) : Prop :=
  get_string a.data ≤ get_string b.data

instance : DecidableRel strLeNode :=
  fun a b => inferInstanceAs (Decidable (get_string a.data ≤ get_string b.data))

/-- FuncNode.get_edges_str: the edge set sorted by the get_string key
(a stable sort, like the Python sorted builtin), each entry rendered as a
parenthesized label followed by a space. -/
def get_edges_str (n : FuncNode) (inverse : Bool) : String :=
  (List.insertionSort strLeData (get_edges n inverse)).foldl
    (fun s e => s ++ "(" ++ pyRepr e ++ ") ") ""

/-- The sequence of nodes printed by Search.output_text: the graph sorted
by the get_string key, keeping only nodes that are not hidden. -/
def outputNodes (g : List FuncNode) : List FuncNode :=
  (List.insertionSort strLeNode g).filter (fun n => is_hidden n = false)

/-- The printed report row of one node: its label and its edge string for
the configured direction. -/
def output_lines (g : List FuncNode) (inverse : Bool) : List (String × String) :=
  (outputNodes g).map (fun n => (pyRepr n.data, get_edges_str n inverse))

/-- The networkx directed graph value: insertion-ordered node and edge
lists, deduplicated by the identity triple (node objects hash and compare
by it). -/
structure NXGraph where
  nodes : List NodeData
  edges : List (NodeData × NodeData)
deriving DecidableEq, Repr

/-- networkx add_node: no-op when a node with the same triple is present. -/
def NXGraph.addNode (G : NXGraph) (u : NodeData) : NXGraph :=
  if u.triple ∈ dataTriples G.nodes then G else { G with nodes := G.nodes ++ [u] }

/-- The triple pairs of an edge list. -/
def edgeTriples (l : List (NodeData × NodeData)) :
    List ((String × String × String) × (String × String × String)) :=
  l.map (fun p => (p.1.triple, p.2.triple))

/-- networkx add_edge: registers both endpoints, then records the directed
pair unless an edge with the same triple pair is present. -/
def NXGraph.addEdge (G : NXGraph) (u v : NodeData) : NXGraph :=
  let G1 := G.addNode u
  let G2 := G1.addNode v
  if (u.triple, v.triple) ∈ edgeTriples G2.edges then G2
  else { G2 with edges := G2.edges ++ [(u, v)] }

/-- Search.get_nx_graph: adds every node that is not secondary, then for
every such node walks its get_edges set (the dependents), skipping
secondary endpoints, inserting the pair (node, edge) when the inverse
option is unset and (edge, node) when it is set. -/
def get_nx_graph (g : List FuncNode) (inverse : Bool) : NXGraph :=
  let G0 := g.foldl (fun G n => if is_secondary n then G else G.addNode n.data) ⟨[], []⟩
  g.foldl (fun G n =>
    if is_secondary n then G
    else (get_edges n false).foldl (fun G e =>
      if e.is_secondary then G
      else if inverse = false then G.addEdge n.data e
      else G.addEdge e n.data) G) G0

/-- Lexicographic ascending order on the identity triple
(filename, then class_name, then name). -/
def tripleLt (a b : NodeData) : Prop :=
  a.filename < b.filename ∨ (a.filename = b.filename ∧
    (a.class_name < b.class_name ∨ (a.class_name = b.class_name ∧ a.name < b.name)))

instance : DecidableRel tripleLt := fun a b => by
  unfold tripleLt; infer_instance

/- Basic lemmas about the data model. -/

theorem pyEq_iff_triple (a b : FuncNode) : a.pyEq b = true ↔ a.triple = b.triple := by
  simp [FuncNode.pyEq, FuncNode.triple, NodeData.triple, Prod.ext_iff, and_assoc]

theorem mem_triples (g : List FuncNode) (t : String × String × String) :
    t ∈ triples g ↔ ∃ m ∈ g, m.triple = t := by
  simp [triples, List.mem_map]

theorem mem_dataTriples (l : List NodeData) (t : String × String × String) :
    t ∈ dataTriples l ↔ ∃ d ∈ l, d.triple = t := by
  simp [dataTriples, List.mem_map]

/-- C1: evidence against the claim. The graph holds two distinct
candidates named foo; exactly one of them (the one whose filename equals
the qualifier f2.py) matches the qualifier, yet when that candidate is
examined second the resolver still records the call site into unsure
(while picking the matching candidate), and when it is examined first no
record is made — so the outcome also depends on the examination order. -/
theorem unsure_recorded_despite_unique_qualifier_match :
    (matchesName "foo" ⟨⟨"other.py", "", "foo", 0⟩, [], [], none⟩ = true) ∧
    (matchesName "foo" ⟨⟨"f2.py", "", "foo", 0⟩, [], [], none⟩ = true) ∧
    (FuncNode.is_identifier ⟨⟨"f2.py", "", "foo", 0⟩, [], [], none⟩ "f2.py" = true) ∧
    (FuncNode.is_identifier ⟨⟨"other.py", "", "foo", 0⟩, [], [], none⟩ "f2.py" = false) ∧
    resolveCall [⟨⟨"other.py", "", "foo", 0⟩, [], [], none⟩,
        ⟨⟨"f2.py", "", "foo", 0⟩, [], [], none⟩] "foo" "f2.py"
        "f2.py:caller(foo)" ⟨none, false, []⟩ =
      ⟨some ⟨⟨"f2.py", "", "foo", 0⟩, [], [], none⟩, true, ["f2.py:caller(foo)"]⟩ ∧
    resolveCall [⟨⟨"f2.py", "", "foo", 0⟩, [], [], none⟩,
        ⟨⟨"other.py", "", "foo", 0⟩, [], [], none⟩] "foo" "f2.py"
        "f2.py:caller(foo)" ⟨none, false, []⟩ =
      ⟨some ⟨⟨"f2.py", "", "foo", 0⟩, [], [], none⟩, true, []⟩ := by
  refine ⟨rfl, rfl, rfl, rfl, rfl, rfl⟩

/-- C2: node registration is idempotent. If a node with the same Python
identity (the triple, compared by FuncNode eq) is already registered, the
graph is unchanged, so the existing node stays the unique node with that
triple and its edge sets are untouched; if no such node exists, the node
is appended; Python equality is exactly triple equality, regardless of
depth or edge sets; and registration preserves the one-node-per-triple
invariant. -/
theorem register_idempotent (g : List FuncNode) (n : FuncNode) :
    ((∃ m ∈ g, m.pyEq n = true) → add_node g n = g) ∧
    ((∀ m ∈ g, m.pyEq n = false) → add_node g n = g ++ [n]) ∧
    (∀ a b : FuncNode, a.pyEq b = true ↔ a.triple = b.triple) ∧
    (List.Pairwise (fun a b : FuncNode => a.triple ≠ b.triple) g →
      List.Pairwise (fun a b : FuncNode => a.triple ≠ b.triple) (add_node g n)) := by
  refine ⟨?_, ?_, pyEq_iff_triple, ?_⟩
  · rintro ⟨m, hm, hpy⟩
    have ht : n.triple ∈ triples g :=
      (mem_triples g n.triple).2 ⟨m, hm, (pyEq_iff_triple m n).1 hpy⟩
    simp [add_node, ht]
  · intro h
    have ht : n.triple ∉ triples g := by
      rw [mem_triples]
      rintro ⟨m, hm, hmt⟩
      have := h m hm
      rw [← pyEq_iff_triple m n] at hmt
      simp [hmt] at this
    simp [add_node, ht]
  · intro hp
    by_cases ht : n.triple ∈ triples g
    · simp [add_node, ht, hp]
    · have hne : ∀ m ∈ g, m.triple ≠ n.triple := by
        intro m hm he
        exact ht ((mem_triples g n.triple).2 ⟨m, hm, he⟩)
      rw [add_node, if_neg ht, List.pairwise_append]
      exact ⟨hp, List.pairwise_singleton _ _, by
        intro a ha b hb
        simp at hb
        subst hb
        exact hne a ha⟩

/-- Witness for C2 at a concrete input: a node with the same triple but a
different depth is already registered, so registration leaves the
one-node graph unchanged. -/
theorem register_idempotent_witness :
    add_node [⟨⟨"m.py", "C", "f", 0⟩, [⟨"x", "", "g", 0⟩], [], none⟩]
        ⟨⟨"m.py", "C", "f", 3⟩, [], [], none⟩ =
      [⟨⟨"m.py", "C", "f", 0⟩, [⟨"x", "", "g", 0⟩], [], none⟩] :=
  (register_idempotent _ _).1
    ⟨⟨⟨"m.py", "C", "f", 0⟩, [⟨"x", "", "g", 0⟩], [], none⟩, by decide, by decide⟩

/- Lemmas about registration and the collection phase. -/

theorem mem_triples_add_node (g : List FuncNode) (n : FuncNode) (t : String × String × String) :
    t ∈ triples (add_node g n) ↔ t ∈ triples g ∨ t = n.triple := by
  by_cases h : n.triple ∈ triples g
  · simp only [add_node, if_pos h]
    constructor
    · exact Or.inl
    · rintro (ht | rfl)
      · exact ht
      · exact h
  · rw [add_node, if_neg h]
    simp only [triples, List.map_append, List.map_cons, List.map_nil, List.mem_append,
      List.mem_singleton]

theorem nodup_triples_add_node (g : List FuncNode) (n : FuncNode)
    (h : (triples g).Nodup) : (triples (add_node g n)).Nodup := by
  by_cases hm : n.triple ∈ triples g
  · simpa only [add_node, if_pos hm] using h
  · rw [add_node, if_neg hm]
    show (List.map FuncNode.triple (g ++ [n])).Nodup
    rw [List.map_append, List.map_cons, List.map_nil, List.nodup_append]
    refine ⟨h, List.nodup_singleton _, fun a ha hb => ?_⟩
    rw [List.mem_singleton] at hb
    subst hb
    exact hm ha

theorem collectFile_as_foldl (g : List FuncNode) (f : SrcFile) (depth : Nat) :
    collectFile g f depth = (f.defs.map (defNode f.filename depth)).foldl add_node g := by
  rw [collectFile, List.foldl_map]

theorem mem_triples_foldl_add_node (l : List FuncNode) (g : List FuncNode)
    (t : String × String × String) :
    t ∈ triples (l.foldl add_node g) ↔ t ∈ triples g ∨ ∃ m ∈ l, m.triple = t := by
  induction l generalizing g with
  | nil => simp
  | cons m l ih =>
    rw [List.foldl_cons, ih, mem_triples_add_node]
    constructor
    · rintro (⟨ht | rfl⟩ | ⟨x, hx, rfl⟩)
      · exact Or.inl ht
      · exact Or.inr ⟨m, List.mem_cons_self m l, rfl⟩
      · exact Or.inr ⟨x, List.mem_cons_of_mem m hx, rfl⟩
    · rintro (ht | ⟨x, hx, rfl⟩)
      · exact Or.inl (Or.inl ht)
      · rcases List.mem_cons.1 hx with rfl | hx
        · exact Or.inl (Or.inr rfl)
        · exact Or.inr ⟨x, hx, rfl⟩

theorem nodup_triples_foldl_add_node (l : List FuncNode) (g : List FuncNode)
    (h : (triples g).Nodup) : (triples (l.foldl add_node g)).Nodup := by
  induction l generalizing g with
  | nil => exact h
  | cons m l ih => exact ih (add_node g m) (nodup_triples_add_node g m h)

theorem mem_triples_collectAll_from (files : List SrcFile) (g : List FuncNode)
    (t : String × String × String) :
    t ∈ triples (files.foldl (fun g f => collectFile g f 0) g) ↔
      t ∈ triples g ∨ ∃ f ∈ files, ∃ d ∈ f.defs, (defNode f.filename 0 d).triple = t := by
  induction files generalizing g with
  | nil => simp
  | cons f files ih =>
    rw [List.foldl_cons, ih, collectFile_as_foldl, mem_triples_foldl_add_node]
    constructor
    · rintro (⟨ht | ⟨m, hm, rfl⟩⟩ | ⟨x, hx, d, hd, hdt⟩)
      · exact Or.inl ht
      · obtain ⟨d, hd, rfl⟩ := List.mem_map.1 hm
        exact Or.inr ⟨f, List.mem_cons_self f files, d, hd, rfl⟩
      · exact Or.inr ⟨x, List.mem_cons_of_mem f hx, d, hd, hdt⟩
    · rintro (ht | ⟨x, hx, d, hd, hdt⟩)
      · exact Or.inl (Or.inl ht)
      · rcases List.mem_cons.1 hx with rfl | hx
        · exact Or.inl (Or.inr ⟨defNode x.filename 0 d, List.mem_map_of_mem _ hd, hdt⟩)
        · exact Or.inr ⟨x, hx, d, hd, hdt⟩

theorem mem_triples_collectAll (files : List SrcFile) (t : String × String × String) :
    t ∈ triples (collectAll files) ↔
      ∃ f ∈ files, ∃ d ∈ f.defs, (defNode f.filename 0 d).triple = t := by
  rw [collectAll, mem_triples_collectAll_from]
  simp [triples]

theorem nodup_triples_collect_from (files : List SrcFile) (g : List FuncNode)
    (h : (triples g).Nodup) :
    (triples (files.foldl (fun g f => collectFile g f 0) g)).Nodup := by
  induction files generalizing g with
  | nil => exact h
  | cons f files ih =>
    rw [List.foldl_cons]
    exact ih _ (by rw [collectFile_as_foldl]; exact nodup_triples_foldl_add_node _ _ h)

theorem nodup_triples_collectAll (files : List SrcFile) :
    (triples (collectAll files)).Nodup := by
  rw [collectAll]
  exact nodup_triples_collect_from files [] (by simp [triples])

/- Lemmas about the candidate-search loop. -/

theorem foldl_resolveStep_no_match (l : List FuncNode) (dep home ustr : String)
    (acc : ResolveAcc) (h : ∀ m ∈ l, matchesName dep m = false) :
    l.foldl (resolveStep dep home ustr) acc = acc := by
  induction l generalizing acc with
  | nil => rfl
  | cons m l ih =>
    rw [List.foldl_cons, resolveStep, if_neg]
    · exact ih acc (fun x hx => h x (List.mem_cons_of_mem m hx))
    · simp [h m (List.mem_cons_self m l)]

theorem resolveCall_unique (g : List FuncNode) (dep home ustr : String)
    (u : List String) (n : FuncNode)
    (hfil : g.filter (fun m => matchesName dep m) = [n]) :
    resolveCall g dep home ustr ⟨none, false, u⟩ = ⟨some n, true, u⟩ := by
  rw [List.filter_eq_cons_iff] at hfil
  obtain ⟨l₁, l₂, rfl, h1, h2, h3⟩ := hfil
  have h2' : matchesName dep n = true := by simpa using h2
  have h1' : ∀ m ∈ l₁, matchesName dep m = false := by
    intro m hm
    simpa using h1 m hm
  have h3' : ∀ m ∈ l₂, matchesName dep m = false := by
    intro m hm
    have := List.filter_eq_nil_iff.1 h3 m hm
    simpa using this
  rw [resolveCall, List.foldl_append, foldl_resolveStep_no_match l₁ dep home ustr _ h1',
    List.foldl_cons]
  have hstep : resolveStep dep home ustr ⟨none, false, u⟩ n =
      ⟨some n, true, u⟩ := by
    rw [resolveStep, if_pos h2']
    rfl
  rw [hstep]
  exact foldl_resolveStep_no_match l₂ dep home ustr _ h3'

theorem matchesName_congr (dep : String) (a b : FuncNode) (h : a.triple = b.triple) :
    matchesName dep a = matchesName dep b := by
  have h2 : a.data.class_name = b.data.class_name ∧ a.data.name = b.data.name := by
    rw [FuncNode.triple, FuncNode.triple, NodeData.triple, NodeData.triple,
      Prod.ext_iff, Prod.ext_iff] at h
    exact ⟨h.2.1, h.2.2⟩
  rw [matchesName, matchesName, h2.1, h2.2]

theorem filter_eq_singleton_of_triple (l : List FuncNode) (p : FuncNode → Bool)
    (t : String × String × String) (hnd : (triples l).Nodup)
    (hmem : ∃ m ∈ l, p m = true) (hall : ∀ m ∈ l, p m = true → m.triple = t) :
    ∃ m, l.filter p = [m] ∧ m.triple = t := by
  obtain ⟨m0, hm0, hp0⟩ := hmem
  have hme : m0 ∈ l.filter p := List.mem_filter.2 ⟨hm0, hp0⟩
  have hndf : (triples (l.filter p)).Nodup := by
    refine List.Nodup.sublist ?_ hnd
    exact List.Sublist.map _ (List.filter_sublist l)
  rcases hfe : l.filter p with _ | ⟨a, rest⟩
  · rw [hfe] at hme
    exact absurd hme (List.not_mem_nil m0)
  · have ha : a ∈ l ∧ p a = true := List.mem_filter.1 (hfe ▸ List.mem_cons_self a rest)
    have hat : a.triple = t := hall a ha.1 ha.2
    refine ⟨a, ?_, hat⟩
    rcases hre : rest with _ | ⟨b, rest2⟩
    · rfl
    · exfalso
      have hb : b ∈ l.filter p := by
        rw [hfe, hre]
        exact List.mem_cons_of_mem a (List.mem_cons_self b rest2)
      have hbl : b ∈ l ∧ p b = true := List.mem_filter.1 hb
      have hbt : b.triple = t := hall b hbl.1 hbl.2
      rw [hfe, hre] at hndf
      simp only [triples, List.map_cons, List.nodup_cons] at hndf
      exact hndf.1 (by rw [hat, ← hbt]; exact List.mem_cons_self _ _)

/-- C3: two-phase consequence. After the collection phase over the
requested files, a call whose target name matches exactly one collected
definition node (the node of a definition of file B) resolves to that
node with nothing recorded into unsure, and for any permutation of the
collection order the unique candidate carries the same identity triple
and the call resolves to it likewise. -/
theorem phase_order_independence (fs fs' : List SrcFile) (B : SrcFile) (d : DefEntry)
    (dep home ustr : String) (u : List String) (n : FuncNode)
    (hperm : fs.Perm fs') (hB : B ∈ fs) (hd : d ∈ B.defs)
    (hn : n = defNode B.filename 0 d)
    (huniq : (collectAll fs).filter (fun m => matchesName dep m) = [n]) :
    resolveCall (collectAll fs) dep home ustr ⟨none, false, u⟩ = ⟨some n, true, u⟩ ∧
    ∃ n', n'.triple = n.triple ∧
      (collectAll fs').filter (fun m => matchesName dep m) = [n'] ∧
      resolveCall (collectAll fs') dep home ustr ⟨none, false, u⟩ = ⟨some n', true, u⟩ := by
  have hnmem : n ∈ collectAll fs ∧ matchesName dep n = true := by
    have : n ∈ (collectAll fs).filter (fun m => matchesName dep m) := by
      rw [huniq]
      exact List.mem_cons_self n []
    have h2 := List.mem_filter.1 this
    exact ⟨h2.1, by simpa using h2.2⟩
  have htr : ∀ t, t ∈ triples (collectAll fs) ↔ t ∈ triples (collectAll fs') := by
    intro t
    rw [mem_triples_collectAll, mem_triples_collectAll]
    constructor
    · rintro ⟨f, hf, hrest⟩
      exact ⟨f, hperm.mem_iff.1 hf, hrest⟩
    · rintro ⟨f, hf, hrest⟩
      exact ⟨f, hperm.mem_iff.2 hf, hrest⟩
  have hall : ∀ m ∈ collectAll fs', matchesName dep m = true → m.triple = n.triple := by
    intro m hm hpm
    have hmt : m.triple ∈ triples (collectAll fs) := by
      rw [htr]
      exact (mem_triples (collectAll fs') m.triple).2 ⟨m, hm, rfl⟩
    obtain ⟨m0, hm0, hm0t⟩ := (mem_triples (collectAll fs) m.triple).1 hmt
    have hpm0 : matchesName dep m0 = true := by
      rw [matchesName_congr dep m0 m hm0t]
      exact hpm
    have : m0 ∈ (collectAll fs).filter (fun m => matchesName dep m) :=
      List.mem_filter.2 ⟨hm0, by simpa using hpm0⟩
    rw [huniq, List.mem_singleton] at this
    rw [← hm0t, this]
  have hmem : ∃ m ∈ collectAll fs', matchesName dep m = true := by
    have hnt : n.triple ∈ triples (collectAll fs') := by
      rw [← htr]
      exact (mem_triples (collectAll fs) n.triple).2 ⟨n, hnmem.1, rfl⟩
    obtain ⟨m, hm, hmt⟩ := (mem_triples (collectAll fs') n.triple).1 hnt
    refine ⟨m, hm, ?_⟩
    rw [matchesName_congr dep m n hmt]
    exact hnmem.2
  obtain ⟨n', hfil', hnt'⟩ := filter_eq_singleton_of_triple (collectAll fs')
    (fun m => matchesName dep m) n.triple (nodup_triples_collectAll fs') hmem hall
  exact ⟨resolveCall_unique _ dep home ustr u n huniq,
    n', hnt', hfil', resolveCall_unique _ dep home ustr u n' hfil'⟩

/-- Witness for C3 at a concrete input: files a.py (defining f) and b.py
(defining g) collected in either order; the call to g resolves to the
node of the definition in b.py with nothing recorded into unsure. -/
theorem phase_order_independence_witness :
    resolveCall (collectAll [⟨"a.py", [DefEntry.funcDef "" "f" 1]⟩,
        ⟨"b.py", [DefEntry.funcDef "" "g" 2]⟩]) "g" "a.py" "a.py:f(g)"
        ⟨none, false, []⟩ =
      ⟨some (defNode "b.py" 0 (DefEntry.funcDef "" "g" 2)), true, []⟩ :=
  (phase_order_independence
    [⟨"a.py", [DefEntry.funcDef "" "f" 1]⟩, ⟨"b.py", [DefEntry.funcDef "" "g" 2]⟩]
    [⟨"b.py", [DefEntry.funcDef "" "g" 2]⟩, ⟨"a.py", [DefEntry.funcDef "" "f" 1]⟩]
    ⟨"b.py", [DefEntry.funcDef "" "g" 2]⟩ (DefEntry.funcDef "" "g" 2)
    "g" "a.py" "a.py:f(g)" [] (defNode "b.py" 0 (DefEntry.funcDef "" "g" 2))
    (by decide) (by decide) (by decide) rfl (by decide)).1

/- Lemmas about edge recording. -/

theorem add_edge_data (n : FuncNode) (e : NodeData) (b : Bool) :
    (n.add_edge e b).data = n.data := by
  cases b <;> rfl

theorem add_edge_triple (n : FuncNode) (e : NodeData) (b : Bool) :
    (n.add_edge e b).triple = n.triple := by
  rw [FuncNode.triple, FuncNode.triple, add_edge_data]

theorem triples_graphModify_add_edge (g : List FuncNode) (t : String × String × String)
    (e : NodeData) (b : Bool) :
    triples (graphModify g t (fun n => n.add_edge e b)) = triples g := by
  rw [triples, graphModify, List.map_map, triples]
  refine List.map_congr_left ?_
  intro a ha
  by_cases h : a.triple = t
  · simp only [Function.comp_apply, if_pos h, add_edge_triple]
  · simp only [Function.comp_apply, if_neg h]

theorem triples_detector_add_edge (g : List FuncNode) (b : Bool) (dep : String)
    (t : FuncNode) (dn : Option FuncNode) :
    triples (detector_add_edge g b dep t dn) =
      triples (add_node (add_node g t) (dn.getD (mkPlaceholder b dep))) := by
  cases dn with
  | none =>
    rw [detector_add_edge, Option.getD_none]
    rw [triples_graphModify_add_edge, triples_graphModify_add_edge]
  | some d =>
    rw [detector_add_edge, Option.getD_some]
    rw [triples_graphModify_add_edge, triples_graphModify_add_edge]

theorem triples_add_node_mem (g : List FuncNode) (n : FuncNode)
    (h : n.triple ∈ triples g) : triples (add_node g n) = triples g := by
  rw [add_node, if_pos h]

theorem triples_add_node_not_mem (g : List FuncNode) (n : FuncNode)
    (h : n.triple ∉ triples g) : triples (add_node g n) = triples g ++ [n.triple] := by
  rw [add_node, if_neg h, triples, triples, List.map_append, List.map_cons, List.map_nil]

theorem mem_dataTriples_insertData (l : List NodeData) (d : NodeData)
    (t : String × String × String) :
    t ∈ dataTriples (insertData l d) ↔ t ∈ dataTriples l ∨ t = d.triple := by
  by_cases h : d.triple ∈ dataTriples l
  · rw [insertData, if_pos h]
    constructor
    · exact Or.inl
    · rintro (ht | rfl)
      · exact ht
      · exact h
  · rw [insertData, if_neg h]
    simp only [dataTriples, List.map_append, List.map_cons, List.map_nil, List.mem_append,
      List.mem_singleton]

theorem self_mem_dataTriples_insertData (l : List NodeData) (d : NodeData) :
    d.triple ∈ dataTriples (insertData l d) :=
  (mem_dataTriples_insertData l d d.triple).2 (Or.inr rfl)

theorem graphModify_mem_match (g : List FuncNode) (t : String × String × String)
    (f : FuncNode → FuncNode) (a : FuncNode) (ha : a ∈ g) (hat : a.triple = t) :
    f a ∈ graphModify g t f := by
  rw [graphModify]
  simpa only [if_pos hat] using
    List.mem_map_of_mem (fun n => if n.triple = t then f n else n) ha

theorem graphModify_mem_miss (g : List FuncNode) (t : String × String × String)
    (f : FuncNode → FuncNode) (a : FuncNode) (ha : a ∈ g) (hat : a.triple ≠ t) :
    a ∈ graphModify g t f := by
  rw [graphModify]
  simpa only [if_neg hat] using
    List.mem_map_of_mem (fun n => if n.triple = t then f n else n) ha

theorem mem_add_node_of_mem (g : List FuncNode) (n a : FuncNode) (ha : a ∈ g) :
    a ∈ add_node g n := by
  by_cases h : n.triple ∈ triples g
  · rw [add_node, if_pos h]
    exact ha
  · rw [add_node, if_neg h]
    exact List.mem_append_left _ ha

theorem detector_add_edge_none_eq (g : List FuncNode) (b : Bool) (dep : String)
    (t : FuncNode) :
    detector_add_edge g b dep t none =
      graphModify
        (graphModify (add_node (add_node g t) (mkPlaceholder b dep)) t.triple
          (fun n => n.add_edge (mkPlaceholder b dep).data true))
        (mkPlaceholder b dep).triple
        (fun n => n.add_edge t.data false) := rfl

theorem detector_add_edge_some_eq (g : List FuncNode) (b : Bool) (dep : String)
    (t d : FuncNode) :
    detector_add_edge g b dep t (some d) =
      graphModify
        (graphModify (add_node (add_node g t) d) t.triple
          (fun n => n.add_edge d.data true))
        d.triple
        (fun n => n.add_edge t.data false) := rfl

/-- C4: placeholder fabrication. When no candidate was resolved, the edge
recorder fabricates the depth-1 placeholder (System/Builtins for a
built-in name, Unknown/Unknown otherwise), registers it, and still
records the edge from the caller to it; a second call with the same
unresolved name (whether it again resolves nothing or finds the stored
placeholder) leaves exactly one node with the placeholder triple in the
graph. -/
theorem placeholder_fabrication (g : List FuncNode) (b : Bool) (dep : String)
    (t1 t2 : FuncNode)
    (hfresh : (mkPlaceholder b dep).triple ∉ triples g)
    (hne1 : t1.triple ≠ (mkPlaceholder b dep).triple)
    (hne2 : t2.triple ≠ (mkPlaceholder b dep).triple) :
    (∃ m ∈ detector_add_edge g b dep t1 none, m.data = (mkPlaceholder b dep).data) ∧
    (∃ m ∈ detector_add_edge g b dep t1 none, m.triple = t1.triple ∧
      (mkPlaceholder b dep).triple ∈ dataTriples m.dependencies) ∧
    (mkPlaceholder b dep).data.depth = 1 ∧
    (mkPlaceholder b dep).data.name = dep ∧
    (b = true → (mkPlaceholder b dep).data.filename = "System" ∧
      (mkPlaceholder b dep).data.class_name = "Builtins") ∧
    (b = false → (mkPlaceholder b dep).data.filename = "Unknown" ∧
      (mkPlaceholder b dep).data.class_name = "Unknown") ∧
    ((triples (detector_add_edge (detector_add_edge g b dep t1 none) b dep t2
        none)).count (mkPlaceholder b dep).triple = 1) ∧
    (∀ d : FuncNode, d.triple = (mkPlaceholder b dep).triple →
      (triples (detector_add_edge (detector_add_edge g b dep t1 none) b dep t2
          (some d))).count (mkPlaceholder b dep).triple = 1) := by
  have hpht : (mkPlaceholder b dep).triple ∉ triples (add_node g t1) := by
    rw [mem_triples_add_node]
    rintro (h | h)
    · exact hfresh h
    · exact hne1 h.symm
  have hphX : mkPlaceholder b dep ∈ add_node (add_node g t1) (mkPlaceholder b dep) := by
    rw [add_node, if_neg hpht]
    exact List.mem_append_right _ (List.mem_singleton.2 rfl)
  have hne1s : (mkPlaceholder b dep).triple ≠ t1.triple := Ne.symm hne1
  have e1 : triples (detector_add_edge g b dep t1 none) =
      triples (add_node g t1) ++ [(mkPlaceholder b dep).triple] := by
    rw [triples_detector_add_edge, Option.getD_none, triples_add_node_not_mem _ _ hpht]
  have hph_in_g1 : (mkPlaceholder b dep).triple ∈
      triples (detector_add_edge g b dep t1 none) := by
    rw [e1]
    exact List.mem_append_right _ (List.mem_singleton.2 rfl)
  have hcount_g1 : (triples (detector_add_edge g b dep t1 none)).count
      (mkPlaceholder b dep).triple = 1 := by
    rw [e1, List.count_append]
    rw [List.count_eq_zero.2 hpht]
    simp
  have hcount_T2 : ((triples (add_node (detector_add_edge g b dep t1 none) t2)).count
      (mkPlaceholder b dep).triple = 1) := by
    by_cases h2 : t2.triple ∈ triples (detector_add_edge g b dep t1 none)
    · rw [triples_add_node_mem _ _ h2, hcount_g1]
    · rw [triples_add_node_not_mem _ _ h2, List.count_append, hcount_g1]
      have : List.count (mkPlaceholder b dep).triple [t2.triple] = 0 :=
        List.count_eq_zero.2 (by
          rw [List.mem_singleton]
          exact fun h => hne2 h.symm)
      rw [this]
  have hmemT2 : (mkPlaceholder b dep).triple ∈
      triples (add_node (detector_add_edge g b dep t1 none) t2) := by
    rw [mem_triples_add_node]
    exact Or.inl hph_in_g1
  refine ⟨?_, ?_, ?_, ?_, ?_, ?_, ?_, ?_⟩
  · rw [detector_add_edge_none_eq]
    refine ⟨(mkPlaceholder b dep).add_edge t1.data false, ?_, add_edge_data _ _ _⟩
    refine graphModify_mem_match _ _ _ _ ?_ rfl
    exact graphModify_mem_miss _ _ _ _ hphX hne1s
  · rw [detector_add_edge_none_eq]
    have ht1m : t1.triple ∈ triples (add_node g t1) :=
      (mem_triples_add_node g t1 t1.triple).2 (Or.inr rfl)
    obtain ⟨m0, hm0, hm0t⟩ := (mem_triples _ _).1 ht1m
    have hm0X : m0 ∈ add_node (add_node g t1) (mkPlaceholder b dep) :=
      mem_add_node_of_mem _ _ _ hm0
    refine ⟨m0.add_edge (mkPlaceholder b dep).data true, ?_, ?_, ?_⟩
    · refine graphModify_mem_miss _ _ _ _ ?_ ?_
      · exact graphModify_mem_match _ _ _ _ hm0X hm0t
      · rw [add_edge_triple, hm0t]
        exact hne1
    · rw [add_edge_triple]
      exact hm0t
    · show (mkPlaceholder b dep).triple ∈
        dataTriples (insertData m0.dependencies (mkPlaceholder b dep).data)
      exact self_mem_dataTriples_insertData _ _
  · cases b <;> rfl
  · cases b <;> rfl
  · intro hb
    subst hb
    exact ⟨rfl, rfl⟩
  · intro hb
    subst hb
    exact ⟨rfl, rfl⟩
  · rw [triples_detector_add_edge, Option.getD_none,
      triples_add_node_mem _ _ hmemT2]
    exact hcount_T2
  · intro d hd
    rw [triples_detector_add_edge, Option.getD_some,
      triples_add_node_mem _ _ (hd ▸ hmemT2)]
    exact hcount_T2

/-- Witness for C4 at a concrete input: two module-level callers in a.py
invoke the undefined name mystery; after the second call exactly one
Unknown/Unknown placeholder node for mystery is in the graph, and the
first caller holds an edge to it. -/
theorem placeholder_fabrication_witness :
    (∃ m ∈ detector_add_edge [] false "mystery"
        ⟨⟨"a.py", "", "f", 0⟩, [], [], none⟩ none,
      m.data = (mkPlaceholder false "mystery").data) ∧
    ((triples (detector_add_edge (detector_add_edge [] false "mystery"
        ⟨⟨"a.py", "", "f", 0⟩, [], [], none⟩ none) false "mystery"
        ⟨⟨"a.py", "", "h", 0⟩, [], [], none⟩ none)).count
      (mkPlaceholder false "mystery").triple = 1) := by
  have h := placeholder_fabrication [] false "mystery"
    ⟨⟨"a.py", "", "f", 0⟩, [], [], none⟩ ⟨⟨"a.py", "", "h", 0⟩, [], [], none⟩
    (by decide) (by decide) (by decide)
  exact ⟨h.1, h.2.2.2.2.2.2.1⟩

/- Lemmas about the reduced networkx graph. -/

theorem is_secondary_false_iff (n : FuncNode) :
    is_secondary n = false ↔ n.data.depth = 0 := by
  rw [is_secondary]
  simp

theorem data_is_secondary_false_iff (d : NodeData) :
    d.is_secondary = false ↔ d.depth = 0 := by
  rw [NodeData.is_secondary]
  simp

theorem addNode_edges (G : NXGraph) (u : NodeData) : (G.addNode u).edges = G.edges := by
  rw [NXGraph.addNode]
  by_cases h : u.triple ∈ dataTriples G.nodes
  · rw [if_pos h]
  · rw [if_neg h]

/-- The depth-zero invariant of the reduced graph value. -/
def nxDepthZero (G : NXGraph) : Prop :=
  (∀ u ∈ G.nodes, u.depth = 0) ∧ (∀ p ∈ G.edges, p.1.depth = 0 ∧ p.2.depth = 0)

theorem nxDepthZero_addNode (G : NXGraph) (u : NodeData) (hG : nxDepthZero G)
    (hu : u.depth = 0) : nxDepthZero (G.addNode u) := by
  rw [NXGraph.addNode]
  by_cases h : u.triple ∈ dataTriples G.nodes
  · rw [if_pos h]
    exact hG
  · rw [if_neg h]
    refine ⟨?_, hG.2⟩
    intro x hx
    rcases List.mem_append.1 hx with hx | hx
    · exact hG.1 x hx
    · rw [List.mem_singleton] at hx
      subst hx
      exact hu

theorem nxDepthZero_addEdge (G : NXGraph) (u v : NodeData) (hG : nxDepthZero G)
    (hu : u.depth = 0) (hv : v.depth = 0) : nxDepthZero (G.addEdge u v) := by
  rw [NXGraph.addEdge]
  have h2 : nxDepthZero ((G.addNode u).addNode v) :=
    nxDepthZero_addNode _ _ (nxDepthZero_addNode _ _ hG hu) hv
  by_cases h : (u.triple, v.triple) ∈ edgeTriples ((G.addNode u).addNode v).edges
  · rw [if_pos h]
    exact h2
  · rw [if_neg h]
    refine ⟨h2.1, ?_⟩
    intro p hp
    rcases List.mem_append.1 hp with hp | hp
    · exact h2.2 p hp
    · rw [List.mem_singleton] at hp
      subst hp
      exact ⟨hu, hv⟩

theorem nxDepthZero_inner (es : List NodeData) (nd : NodeData) (inverse : Bool)
    (G : NXGraph) (hG : nxDepthZero G) (hnd : nd.depth = 0) :
    nxDepthZero (es.foldl (fun G e =>
      if e.is_secondary then G
      else if inverse = false then G.addEdge nd e
      else G.addEdge e nd) G) := by
  induction es generalizing G with
  | nil => exact hG
  | cons e es ih =>
    rw [List.foldl_cons]
    refine ih _ ?_
    by_cases hs : e.is_secondary
    · rw [if_pos hs]
      exact hG
    · rw [if_neg hs]
      have he : e.depth = 0 := (data_is_secondary_false_iff e).1 (by
        rwa [Bool.not_eq_true] at hs)
      by_cases hi : inverse = false
      · rw [if_pos hi]
        exact nxDepthZero_addEdge _ _ _ hG hnd he
      · rw [if_neg hi]
        exact nxDepthZero_addEdge _ _ _ hG he hnd

theorem nxDepthZero_nodesLoop (g : List FuncNode) (G : NXGraph) (hG : nxDepthZero G) :
    nxDepthZero (g.foldl (fun G n => if is_secondary n then G else G.addNode n.data) G) := by
  induction g generalizing G with
  | nil => exact hG
  | cons n g ih =>
    rw [List.foldl_cons]
    refine ih _ ?_
    by_cases hs : is_secondary n
    · rw [if_pos hs]
      exact hG
    · rw [if_neg hs]
      exact nxDepthZero_addNode _ _ hG ((is_secondary_false_iff n).1 (by
        rwa [Bool.not_eq_true] at hs))

theorem nxDepthZero_edgesLoop (g : List FuncNode) (inverse : Bool) (G : NXGraph)
    (hG : nxDepthZero G) :
    nxDepthZero (g.foldl (fun G n =>
      if is_secondary n then G
      else (get_edges n false).foldl (fun G e =>
        if e.is_secondary then G
        else if inverse = false then G.addEdge n.data e
        else G.addEdge e n.data) G) G) := by
  induction g generalizing G with
  | nil => exact hG
  | cons n g ih =>
    rw [List.foldl_cons]
    refine ih _ ?_
    by_cases hs : is_secondary n
    · rw [if_pos hs]
      exact hG
    · rw [if_neg hs]
      exact nxDepthZero_inner _ _ _ _ hG ((is_secondary_false_iff n).1 (by
        rwa [Bool.not_eq_true] at hs))

/-- C5: the reduced graph handed to the external collaborators contains
only depth-0 nodes and only edges with both endpoints of depth 0, and
every hidden node (positive depth, empty callee and caller sets) is
omitted from the textual report. -/
theorem reduced_graph_secondary_exclusion (g : List FuncNode) (inverse : Bool) :
    (∀ u ∈ (get_nx_graph g inverse).nodes, u.depth = 0) ∧
    (∀ p ∈ (get_nx_graph g inverse).edges, p.1.depth = 0 ∧ p.2.depth = 0) ∧
    (∀ n : FuncNode, is_hidden n = true → n ∉ outputNodes g) := by
  have hz : nxDepthZero (get_nx_graph g inverse) := by
    rw [get_nx_graph]
    exact nxDepthZero_edgesLoop g inverse _
      (nxDepthZero_nodesLoop g ⟨[], []⟩ ⟨by simp, by simp⟩)
  refine ⟨hz.1, hz.2, ?_⟩
  intro n hh hmem
  rw [outputNodes] at hmem
  have := (List.mem_filter.1 hmem).2
  simp only [hh] at this
  exact absurd this (by simp)

/-- Witness for C5 at a concrete input: a crawled-only node of depth 1
with no edges is hidden and is not printed in the report of the one-node
graph containing it. -/
theorem reduced_graph_secondary_exclusion_witness :
    (⟨⟨"x.py", "", "f", 1⟩, [], [], none⟩ : FuncNode) ∉
      outputNodes [⟨⟨"x.py", "", "f", 1⟩, [], [], none⟩] :=
  (reduced_graph_secondary_exclusion [⟨⟨"x.py", "", "f", 1⟩, [], [], none⟩] false).2.2
    ⟨⟨"x.py", "", "f", 1⟩, [], [], none⟩ (by decide)

theorem addNode_edgeTriples (G : NXGraph) (u : NodeData) :
    edgeTriples (G.addNode u).edges = edgeTriples G.edges := by
  rw [addNode_edges]

theorem mem_edgeTriples_addEdge (G : NXGraph) (a bd : NodeData)
    (u v : String × String × String) :
    (u, v) ∈ edgeTriples (G.addEdge a bd).edges ↔
      (u, v) ∈ edgeTriples G.edges ∨ (u = a.triple ∧ v = bd.triple) := by
  rw [NXGraph.addEdge]
  by_cases h : (a.triple, bd.triple) ∈ edgeTriples ((G.addNode a).addNode bd).edges
  · rw [if_pos h]
    rw [addNode_edgeTriples, addNode_edgeTriples] at h ⊢
    constructor
    · exact Or.inl
    · rintro (hm | ⟨rfl, rfl⟩)
      · exact hm
      · exact h
  · rw [if_neg h]
    show (u, v) ∈ edgeTriples (((G.addNode a).addNode bd).edges ++ [(a, bd)]) ↔ _
    rw [addNode_edges, addNode_edges, edgeTriples, List.map_append, List.map_cons,
      List.map_nil, List.mem_append, List.mem_singleton, edgeTriples]
    constructor
    · rintro (hm | hp)
      · exact Or.inl hm
      · exact Or.inr ⟨congrArg Prod.fst hp, congrArg Prod.snd hp⟩
    · rintro (hm | ⟨rfl, rfl⟩)
      · exact Or.inl hm
      · exact Or.inr rfl

theorem mem_edgeTriples_inner (es : List NodeData) (nd : NodeData) (inverse : Bool)
    (G : NXGraph) (u v : String × String × String) :
    ((u, v) ∈ edgeTriples ((es.foldl (fun G e =>
        if e.is_secondary then G
        else if inverse = false then G.addEdge nd e
        else G.addEdge e nd) G)).edges ↔
      (u, v) ∈ edgeTriples G.edges ∨
        ∃ e ∈ es, e.is_secondary = false ∧
          ((inverse = false ∧ u = nd.triple ∧ v = e.triple) ∨
           (inverse = true ∧ u = e.triple ∧ v = nd.triple))) := by
  induction es generalizing G with
  | nil => simp
  | cons e es ih =>
    rw [List.foldl_cons, ih]
    by_cases hs : e.is_secondary
    · rw [if_pos hs]
      constructor
      · rintro (hm | ⟨x, hx, hrest⟩)
        · exact Or.inl hm
        · exact Or.inr ⟨x, List.mem_cons_of_mem e hx, hrest⟩
      · rintro (hm | ⟨x, hx, hxs, hrest⟩)
        · exact Or.inl hm
        · rcases List.mem_cons.1 hx with rfl | hx
          · rw [hs] at hxs
            exact absurd hxs (by simp)
          · exact Or.inr ⟨x, hx, hxs, hrest⟩
    · rw [if_neg hs]
      have hsf : e.is_secondary = false := by rwa [Bool.not_eq_true] at hs
      by_cases hi : inverse = false
      · rw [if_pos hi, mem_edgeTriples_addEdge]
        subst hi
        constructor
        · rintro ((hm | ⟨rfl, rfl⟩) | ⟨x, hx, hxs, hrest⟩)
          · exact Or.inl hm
          · exact Or.inr ⟨e, List.mem_cons_self e es, hsf, Or.inl ⟨rfl, rfl, rfl⟩⟩
          · exact Or.inr ⟨x, List.mem_cons_of_mem e hx, hxs, hrest⟩
        · rintro (hm | ⟨x, hx, hxs, (⟨hf, rfl, rfl⟩ | ⟨hf, h1, h2⟩)⟩)
          · exact Or.inl (Or.inl hm)
          · rcases List.mem_cons.1 hx with rfl | hx
            · exact Or.inl (Or.inr ⟨rfl, rfl⟩)
            · exact Or.inr ⟨x, hx, hxs, Or.inl ⟨rfl, rfl, rfl⟩⟩
          · exact absurd hf (by simp)
      · rw [if_neg hi, mem_edgeTriples_addEdge]
        have hit : inverse = true := by
          cases inverse
          · exact absurd rfl hi
          · rfl
        subst hit
        constructor
        · rintro ((hm | ⟨rfl, rfl⟩) | ⟨x, hx, hxs, hrest⟩)
          · exact Or.inl hm
          · exact Or.inr ⟨e, List.mem_cons_self e es, hsf, Or.inr ⟨rfl, rfl, rfl⟩⟩
          · exact Or.inr ⟨x, List.mem_cons_of_mem e hx, hxs, hrest⟩
        · rintro (hm | ⟨x, hx, hxs, (⟨hf, h1, h2⟩ | ⟨hf, rfl, rfl⟩)⟩)
          · exact Or.inl (Or.inl hm)
          · exact absurd hf (by simp)
          · rcases List.mem_cons.1 hx with rfl | hx
            · exact Or.inl (Or.inr ⟨rfl, rfl⟩)
            · exact Or.inr ⟨x, hx, hxs, Or.inr ⟨rfl, rfl, rfl⟩⟩

theorem edges_nodesLoop (g : List FuncNode) (G : NXGraph) :
    (g.foldl (fun G n => if is_secondary n then G else G.addNode n.data) G).edges =
      G.edges := by
  induction g generalizing G with
  | nil => rfl
  | cons n g ih =>
    rw [List.foldl_cons]
    rw [ih]
    by_cases hs : is_secondary n
    · rw [if_pos hs]
    · rw [if_neg hs, addNode_edges]

theorem mem_edgeTriples_outer (g : List FuncNode) (inverse : Bool) (G : NXGraph)
    (u v : String × String × String) :
    ((u, v) ∈ edgeTriples ((g.foldl (fun G n =>
        if is_secondary n then G
        else (get_edges n false).foldl (fun G e =>
          if e.is_secondary then G
          else if inverse = false then G.addEdge n.data e
          else G.addEdge e n.data) G) G)).edges ↔
      (u, v) ∈ edgeTriples G.edges ∨
        ∃ n ∈ g, is_secondary n = false ∧ ∃ e ∈ n.dependents, e.is_secondary = false ∧
          ((inverse = false ∧ u = n.data.triple ∧ v = e.triple) ∨
           (inverse = true ∧ u = e.triple ∧ v = n.data.triple))) := by
  induction g generalizing G with
  | nil => simp
  | cons n g ih =>
    rw [List.foldl_cons, ih]
    by_cases hs : is_secondary n
    · rw [if_pos hs]
      constructor
      · rintro (hm | ⟨x, hx, hrest⟩)
        · exact Or.inl hm
        · exact Or.inr ⟨x, List.mem_cons_of_mem n hx, hrest⟩
      · rintro (hm | ⟨x, hx, hxs, hrest⟩)
        · exact Or.inl hm
        · rcases List.mem_cons.1 hx with rfl | hx
          · rw [hs] at hxs
            exact absurd hxs (by simp)
          · exact Or.inr ⟨x, hx, hxs, hrest⟩
    · rw [if_neg hs]
      have hsf : is_secondary n = false := by rwa [Bool.not_eq_true] at hs
      rw [mem_edgeTriples_inner]
      constructor
      · rintro ((hm | ⟨e, he, hes, hrest⟩) | ⟨x, hx, hxs, hrest⟩)
        · exact Or.inl hm
        · exact Or.inr ⟨n, List.mem_cons_self n g, hsf, e, he, hes, hrest⟩
        · exact Or.inr ⟨x, List.mem_cons_of_mem n hx, hxs, hrest⟩
      · rintro (hm | ⟨x, hx, hxs, e, he, hes, hrest⟩)
        · exact Or.inl (Or.inl hm)
        · rcases List.mem_cons.1 hx with rfl | hx
          · exact Or.inl (Or.inr ⟨e, he, hes, hrest⟩)
          · exact Or.inr ⟨x, hx, hxs, e, he, hes, hrest⟩

/-- C10: direction of the reduced-graph edges. The edge loop walks each
get_edges set of each non-secondary node, which is its dependents, so
with the inverse option unset the inserted pair is (callee, caller): a
pair of triples (u, v) is an edge exactly when some depth-0 node with
triple u has a depth-0 caller with triple v in its dependents set; with
the inverse option set the inserted pair is the reverse. -/
theorem nx_edge_direction (g : List FuncNode) (u v : String × String × String) :
    ((u, v) ∈ edgeTriples (get_nx_graph g false).edges ↔
      ∃ n ∈ g, is_secondary n = false ∧ ∃ e ∈ n.dependents, e.is_secondary = false ∧
        u = n.data.triple ∧ v = e.triple) ∧
    ((u, v) ∈ edgeTriples (get_nx_graph g true).edges ↔
      ∃ n ∈ g, is_secondary n = false ∧ ∃ e ∈ n.dependents, e.is_secondary = false ∧
        u = e.triple ∧ v = n.data.triple) := by
  constructor
  · rw [get_nx_graph, mem_edgeTriples_outer]
    rw [edges_nodesLoop]
    constructor
    · rintro (hm | ⟨n, hn, hns, e, he, hes, (⟨hf, h1, h2⟩ | ⟨hf, h1, h2⟩)⟩)
      · exact absurd hm (by simp [edgeTriples])
      · exact ⟨n, hn, hns, e, he, hes, h1, h2⟩
      · exact absurd hf (by simp)
    · rintro ⟨n, hn, hns, e, he, hes, h1, h2⟩
      exact Or.inr ⟨n, hn, hns, e, he, hes, Or.inl ⟨rfl, h1, h2⟩⟩
  · rw [get_nx_graph, mem_edgeTriples_outer]
    rw [edges_nodesLoop]
    constructor
    · rintro (hm | ⟨n, hn, hns, e, he, hes, (⟨hf, h1, h2⟩ | ⟨hf, h1, h2⟩)⟩)
      · exact absurd hm (by simp [edgeTriples])
      · exact absurd hf (by simp)
      · exact ⟨n, hn, hns, e, he, hes, h1, h2⟩
    · rintro ⟨n, hn, hns, e, he, hes, h1, h2⟩
      exact Or.inr ⟨n, hn, hns, e, he, hes, Or.inr ⟨rfl, h1, h2⟩⟩

/-- Witness for C10 at a concrete input: a depth-0 callee g recorded with
a depth-0 caller f in its dependents set; in non-inverse mode the
reduced-graph edge with triple pair (g, f) runs from the callee to the
caller. -/
theorem nx_edge_direction_witness :
    ((⟨"b.py", "", "g"⟩, ⟨"a.py", "", "f"⟩) ∈ edgeTriples (get_nx_graph
        [⟨⟨"b.py", "", "g", 0⟩, [], [⟨"a.py", "", "f", 0⟩], none⟩] false).edges ↔
      ∃ n ∈ [(⟨⟨"b.py", "", "g", 0⟩, [], [⟨"a.py", "", "f", 0⟩], none⟩ : FuncNode)],
        is_secondary n = false ∧ ∃ e ∈ n.dependents, e.is_secondary = false ∧
          (⟨"b.py", "", "g"⟩ : String × String × String) = n.data.triple ∧
          (⟨"a.py", "", "f"⟩ : String × String × String) = e.triple) :=
  (nx_edge_direction [⟨⟨"b.py", "", "g", 0⟩, [], [⟨"a.py", "", "f", 0⟩], none⟩]
    ⟨"b.py", "", "g"⟩ ⟨"a.py", "", "f"⟩).1

/- Lemmas about the textual report. -/

instance : IsTotal NodeData strLeData :=
  ⟨fun a b => le_total (get_string a) (get_string b)⟩

instance : IsTrans NodeData strLeData :=
  ⟨fun a b c hab hbc => le_trans hab hbc⟩

instance : IsTotal FuncNode strLeNode :=
  ⟨fun a b => le_total (get_string a.data) (get_string b.data)⟩

instance : IsTrans FuncNode strLeNode :=
  ⟨fun a b c hab hbc => le_trans hab hbc⟩

/-- C7: evidence against the claim. The report sorts by the concatenated
key get_string, not by the identity triple: for the two visible nodes
with triples (ab, a, _) and (a, c, _), the report prints the node whose
concatenation aba precedes ac first, although the triple of the other node
(a, c, _) is strictly smaller in the ascending triple order. -/
theorem report_order_not_triple_order :
    outputNodes [⟨⟨"ab", "a", "", 0⟩, [], [], none⟩, ⟨⟨"a", "c", "", 0⟩, [], [], none⟩] =
      [⟨⟨"ab", "a", "", 0⟩, [], [], none⟩, ⟨⟨"a", "c", "", 0⟩, [], [], none⟩] ∧
    tripleLt ⟨"a", "c", "", 0⟩ ⟨"ab", "a", "", 0⟩ := by
  constructor
  · have hle : strLeNode ⟨⟨"ab", "a", "", 0⟩, [], [], none⟩
        ⟨⟨"a", "c", "", 0⟩, [], [], none⟩ := by
      show get_string ⟨"ab", "a", "", 0⟩ ≤ get_string ⟨"a", "c", "", 0⟩
      rw [get_string, get_string, String.le_iff_toList_le]
      decide
    rw [outputNodes, List.insertionSort, List.insertionSort, List.insertionSort,
      List.orderedInsert, List.orderedInsert, if_pos hle]
    rfl
  · exact Or.inl (by rw [String.lt_iff_toList_lt]; decide)

/-- C7 amended: the textual report lists the non-hidden nodes sorted
ascending by the concatenated key origin ++ scope ++ name (which can
disagree with the ascending identity-triple order), and the edge list of
each node — its callers by default, its callees when the inverse option is set
— is likewise sorted ascending by the concatenated key and rendered as a
parenthesized label per entry. -/
theorem report_sorted_by_concat (g : List FuncNode) (inverse : Bool) :
    (outputNodes g).Sorted strLeNode ∧
    (outputNodes g).Perm (g.filter (fun n => is_hidden n = false)) ∧
    (∀ n : FuncNode, ∃ l : List NodeData, l.Perm (get_edges n inverse) ∧
      l.Sorted strLeData ∧
      get_edges_str n inverse = l.foldl (fun s e => s ++ "(" ++ pyRepr e ++ ") ") "") ∧
    (∀ n : FuncNode,
      get_edges n inverse = if inverse then n.dependencies else n.dependents) := by
  refine ⟨?_, ?_, ?_, fun n => rfl⟩
  · exact (List.sorted_insertionSort strLeNode g).filter _
  · exact (List.perm_insertionSort strLeNode g).filter _
  · intro n
    exact ⟨List.insertionSort strLeData (get_edges n inverse),
      List.perm_insertionSort strLeData _,
      List.sorted_insertionSort strLeData _, rfl⟩

/-- Witness for C7 at a concrete input: the one-node report is sorted by
the concatenated key. -/
theorem report_sorted_by_concat_witness :
    (outputNodes [⟨⟨"a.py", "", "f", 0⟩, [], [], none⟩]).Sorted strLeNode :=
  (report_sorted_by_concat [⟨⟨"a.py", "", "f", 0⟩, [], [], none⟩] false).1

/-- C8: built-in calls. When the extracted target name is a built-in
identifier and the built-ins option is unset, visit_Call skips the call
entirely: the search state (graph, diagnostics) and the traversal context
are returned unchanged, with no graph search and no edge recording; when
the option is set — or the name is not built-in — the call goes through
the common processing path. -/
theorem builtin_calls_skipped (builtins : List String) (cfg : Config) (st : SearchState)
    (ctx : EDContext) (func : CallFunc) (callId : Nat) (dep home : String)
    (hext : extractTarget func ctx = some (dep, home)) :
    (dep ∈ builtins → cfg.built_ins = false →
      visit_Call_step builtins cfg st ctx func callId = (st, ctx)) ∧
    (cfg.built_ins = true →
      visit_Call_step builtins cfg st ctx func callId =
        processCall st ctx dep home callId (decide (dep ∈ builtins))) ∧
    (dep ∉ builtins →
      visit_Call_step builtins cfg st ctx func callId =
        processCall st ctx dep home callId false) := by
  refine ⟨?_, ?_, ?_⟩
  · intro hb ho
    simp [visit_Call_step, hext, hb, ho]
  · intro ho
    simp [visit_Call_step, hext, ho]
  · intro hb
    simp [visit_Call_step, hext, hb]

/-- Witness for C8 at a concrete input: a bare call to the built-in name
len with the built-ins option unset changes nothing. -/
theorem builtin_calls_skipped_witness :
    visit_Call_step ["len", "print"] ⟨false, false, false⟩ ⟨[], [], [], []⟩
        ⟨"a.py", "", "f"⟩ (CallFunc.bare (some "len")) 0 =
      (⟨[], [], [], []⟩, ⟨"a.py", "", "f"⟩) :=
  (builtin_calls_skipped ["len", "print"] ⟨false, false, false⟩ ⟨[], [], [], []⟩
    ⟨"a.py", "", "f"⟩ (CallFunc.bare (some "len")) 0 "len" "a.py" rfl).1
    (by decide) rfl

/- Lemmas about import crawling. -/

theorem crawl_import_exhausted_from (env : String → ImportOutcome) (st : CrawlState)
    (refName : String) (folders : List String) (recursive : Nat) :
    ∀ (fuel k : Nat), folders.length + 1 - k = fuel → k ≤ folders.length →
      (∀ i, k ≤ i → i ≤ folders.length →
        env (attemptName folders refName i) = ImportOutcome.importError) →
      crawl_import env st refName folders recursive k =
        { st with uncrawled := insertStr st.uncrawled refName } := by
  intro fuel
  induction fuel with
  | zero =>
    intro k hf hk h
    omega
  | succ fuel ih =>
    intro k hf hk h
    rw [crawl_import, h k le_rfl hk]
    by_cases hlt : k < folders.length
    · rw [dif_pos hlt]
      exact ih (k + 1) (by omega) (by omega) (fun i hi hle => h i (by omega) hle)
    · rw [dif_neg hlt]

theorem crawl_import_noFile_from (env : String → ImportOutcome) (st : CrawlState)
    (refName : String) (folders : List String) (recursive : Nat) :
    ∀ (fuel k j : Nat), folders.length + 1 - k = fuel → k ≤ j → j ≤ folders.length →
      (∀ i, k ≤ i → i < j →
        env (attemptName folders refName i) = ImportOutcome.importError) →
      env (attemptName folders refName j) = ImportOutcome.noFile →
      crawl_import env st refName folders recursive k =
        { st with uncrawled := insertStr st.uncrawled refName } := by
  intro fuel
  induction fuel with
  | zero =>
    intro k j hf hkj hj h hnf
    omega
  | succ fuel ih =>
    intro k j hf hkj hj h hnf
    rcases Nat.eq_or_lt_of_le hkj with rfl | hkj'
    · rw [crawl_import, hnf]
    · rw [crawl_import, h k le_rfl hkj']
      rw [dif_pos (by omega)]
      exact ih (k + 1) j (by omega) (by omega) hj
        (fun i hi hij => h i (by omega) hij) hnf

theorem crawl_import_success_from (env : String → ImportOutcome) (st : CrawlState)
    (refName : String) (folders : List String) (recursive : Nat) (file : SrcFile) :
    ∀ (fuel k j : Nat), folders.length + 1 - k = fuel → k ≤ j → j ≤ folders.length →
      (∀ i, k ≤ i → i < j →
        env (attemptName folders refName i) = ImportOutcome.importError) →
      env (attemptName folders refName j) = ImportOutcome.ok file →
      crawl_import env st refName folders recursive k =
        { st with graph := collectFile st.graph file (recursive + 1),
                  crawled_imports := insertStr st.crawled_imports
                    (attemptName folders refName j) } := by
  intro fuel
  induction fuel with
  | zero =>
    intro k j hf hkj hj h hok
    omega
  | succ fuel ih =>
    intro k j hf hkj hj h hok
    rcases Nat.eq_or_lt_of_le hkj with rfl | hkj'
    · rw [crawl_import, hok]
    · rw [crawl_import, h k le_rfl hkj']
      rw [dif_pos (by omega)]
      exact ih (k + 1) j (by omega) (by omega) hj
        (fun i hi hij => h i (by omega) hij) hok

/-- C9: import crawling fallback. Starting at folder_index 0: if every
attempt up to and including the last segment-depth reports an import
failure, or the first attempt that is not an import failure resolves a
module with no locatable source, the reference name is recorded into
uncrawled and nothing else changes — the crawl returns normally so the
processing of the importing file continues; if the first attempt that is not
an import failure locates a module, its definitions are collected at
depth recursive + 1 and the resolved dotted name is recorded into
crawled_imports. -/
theorem import_crawl_fallback (env : String → ImportOutcome) (st : CrawlState)
    (refName : String) (folders : List String) (recursive : Nat) :
    ((∀ i, i ≤ folders.length →
        env (attemptName folders refName i) = ImportOutcome.importError) →
      crawl_import env st refName folders recursive 0 =
        { st with uncrawled := insertStr st.uncrawled refName }) ∧
    (∀ j, j ≤ folders.length →
      (∀ i, i < j → env (attemptName folders refName i) = ImportOutcome.importError) →
      env (attemptName folders refName j) = ImportOutcome.noFile →
      crawl_import env st refName folders recursive 0 =
        { st with uncrawled := insertStr st.uncrawled refName }) ∧
    (∀ j file, j ≤ folders.length →
      (∀ i, i < j → env (attemptName folders refName i) = ImportOutcome.importError) →
      env (attemptName folders refName j) = ImportOutcome.ok file →
      crawl_import env st refName folders recursive 0 =
        { st with graph := collectFile st.graph file (recursive + 1),
                  crawled_imports := insertStr st.crawled_imports
                    (attemptName folders refName j) }) := by
  refine ⟨?_, ?_, ?_⟩
  · intro h
    exact crawl_import_exhausted_from env st refName folders recursive
      (folders.length + 1) 0 rfl (Nat.zero_le _) (fun i hi hle => h i hle)
  · intro j hj h hnf
    exact crawl_import_noFile_from env st refName folders recursive
      (folders.length + 1) 0 j rfl (Nat.zero_le _) hj (fun i hi hij => h i hij) hnf
  · intro j file hj h hok
    exact crawl_import_success_from env st refName folders recursive file
      (folders.length + 1) 0 j rfl (Nat.zero_le _) hj (fun i hi hij => h i hij) hok

/-- Witness for C9 at a concrete input: with no resolvable module at any
segment-depth, crawling the import x records x into uncrawled and leaves
the graph and the crawled set unchanged. -/
theorem import_crawl_fallback_witness :
    crawl_import (fun s => ImportOutcome.importError) ⟨[], [], []⟩ "x"
        ["pkg", ""] 0 0 =
      { graph := [], crawled_imports := [], uncrawled := insertStr [] "x" } :=
  (import_crawl_fallback (fun s => ImportOutcome.importError) ⟨[], [], []⟩ "x"
    ["pkg", ""] 0).1 (fun i hi => rfl)

/- The graph well-formedness invariant and the mutation primitives. -/

/-- Well-formedness of the graph: one node per identity triple, every
edge-set entry names a registered node, and the two edge sets are
symmetric up to the identity triple. -/
def WFGraph (g : List FuncNode) : Prop :=
  List.Pairwise (fun a b : FuncNode => a.triple ≠ b.triple) g ∧
  (∀ a ∈ g, ∀ t ∈ dataTriples a.dependencies, t ∈ triples g) ∧
  (∀ a ∈ g, ∀ t ∈ dataTriples a.dependents, t ∈ triples g) ∧
  (∀ a ∈ g, ∀ b ∈ g,
    (b.triple ∈ dataTriples a.dependencies ↔ a.triple ∈ dataTriples b.dependents))

/-- A node handed to a mutation is either freshly constructed (both edge
sets empty, as the FuncNode constructor initializes them) or is a node of
the current graph. -/
def freshOrMem (g : List FuncNode) (n : FuncNode) : Prop :=
  (n.dependencies = [] ∧ n.dependents = []) ∨ n ∈ g

/-- The two mutation primitives the graph goes through: node registration
and edge recording. -/
inductive GraphOp where
  | register (n : FuncNode)
  | addEdge (is_built_in : Bool) (dependency : String) (this_node : FuncNode)
      (dependency_node : Option FuncNode)
deriving Repr

/-- One mutation applied to the graph. -/
def applyOp (g : List FuncNode) : GraphOp → List FuncNode
  | GraphOp.register n => add_node g n
  | GraphOp.addEdge b dep t dn => detector_add_edge g b dep t dn

/-- The arguments of a mutation are as produced by the program: registered
nodes are freshly constructed; edge endpoints are freshly constructed or
come from the graph. -/
def OpWF (g : List FuncNode) : GraphOp → Prop
  | GraphOp.register n => n.dependencies = [] ∧ n.dependents = []
  | GraphOp.addEdge _ _ t dn => freshOrMem g t ∧ ∀ d, dn = some d → freshOrMem g d

/-- A sequence of mutations, each well-formed for the graph it is applied
to. -/
def OpsWF : List FuncNode → List GraphOp → Prop
  | _, [] => True
  | g, op :: ops => OpWF g op ∧ OpsWF (applyOp g op) ops

/-- A sequence of mutations applied in order. -/
def applyOps (g : List FuncNode) (ops : List GraphOp) : List FuncNode :=
  ops.foldl applyOp g

theorem dependencies_add_edge_false (m : FuncNode) (e : NodeData) :
    (m.add_edge e false).dependencies = m.dependencies := rfl

theorem dependents_add_edge_true (m : FuncNode) (e : NodeData) :
    (m.add_edge e true).dependents = m.dependents := rfl

theorem dependencies_add_edge_true (m : FuncNode) (e : NodeData) :
    (m.add_edge e true).dependencies = insertData m.dependencies e := rfl

theorem dependents_add_edge_false (m : FuncNode) (e : NodeData) :
    (m.add_edge e false).dependents = insertData m.dependents e := rfl

theorem mkPlaceholder_edges (b : Bool) (dep : String) :
    (mkPlaceholder b dep).dependencies = [] ∧ (mkPlaceholder b dep).dependents = [] := by
  cases b <;> exact ⟨rfl, rfl⟩

theorem WFGraph_add_node (g : List FuncNode) (n : FuncNode) (hg : WFGraph g)
    (hn : (n.dependencies = [] ∧ n.dependents = []) ∨ n.triple ∈ triples g) :
    WFGraph (add_node g n) := by
  by_cases hmem : n.triple ∈ triples g
  · rw [add_node, if_pos hmem]
    exact hg
  · rcases hn with ⟨hdeps, hdepd⟩ | hmem'
    · rw [add_node, if_neg hmem]
      have htr : triples (g ++ [n]) = triples g ++ [n.triple] := by
        rw [triples, triples, List.map_append, List.map_cons, List.map_nil]
      refine ⟨?_, ?_, ?_, ?_⟩
      · rw [List.pairwise_append]
        refine ⟨hg.1, List.pairwise_singleton _ _, ?_⟩
        intro a ha b hb
        rw [List.mem_singleton] at hb
        rw [hb]
        intro he
        exact hmem ((mem_triples g n.triple).2 ⟨a, ha, he⟩)
      · intro a ha t ht
        rw [htr, List.mem_append]
        rcases List.mem_append.1 ha with ha | ha
        · exact Or.inl (hg.2.1 a ha t ht)
        · rw [List.mem_singleton] at ha
          subst ha
          rw [hdeps] at ht
          exact absurd ht (by simp [dataTriples])
      · intro a ha t ht
        rw [htr, List.mem_append]
        rcases List.mem_append.1 ha with ha | ha
        · exact Or.inl (hg.2.2.1 a ha t ht)
        · rw [List.mem_singleton] at ha
          subst ha
          rw [hdepd] at ht
          exact absurd ht (by simp [dataTriples])
      · intro a ha b hb
        rcases List.mem_append.1 ha with ha | ha <;>
          rcases List.mem_append.1 hb with hb | hb
        · exact hg.2.2.2 a ha b hb
        · rw [List.mem_singleton] at hb
          rw [hb]
          constructor
          · intro hin
            exact absurd (hg.2.1 a ha n.triple hin) hmem
          · intro hin
            rw [hdepd] at hin
            exact absurd hin (by simp [dataTriples])
        · rw [List.mem_singleton] at ha
          rw [ha]
          constructor
          · intro hin
            rw [hdeps] at hin
            exact absurd hin (by simp [dataTriples])
          · intro hin
            exact absurd (hg.2.2.1 b hb n.triple hin) hmem
        · rw [List.mem_singleton] at ha hb
          simp [ha, hb, hdeps, hdepd]
    · exact absurd hmem' hmem

/-- The combined effect of the two graph mutations of
EdgeDetector.add_edge on one stored node: the node carrying the triple of
the caller gains the callee in dependencies, the node carrying the triple
of the callee gains the caller in dependents. -/
def recordStep (tf df : FuncNode) (a : FuncNode) : FuncNode :=
  let m := if a.triple = tf.triple then a.add_edge df.data true else a
  if m.triple = df.triple then m.add_edge tf.data false else m

theorem WFGraph_record_edge (g : List FuncNode) (tf df : FuncNode) (hg : WFGraph g)
    (ht : tf.triple ∈ triples g) (hd : df.triple ∈ triples g) :
    WFGraph (graphModify (graphModify g tf.triple (fun n => n.add_edge df.data true))
      df.triple (fun n => n.add_edge tf.data false)) := by
  have hg' : graphModify (graphModify g tf.triple (fun n => n.add_edge df.data true))
      df.triple (fun n => n.add_edge tf.data false) = g.map (recordStep tf df) := by
    rw [graphModify, graphModify, List.map_map]
    rfl
  have hTr : triples (graphModify (graphModify g tf.triple
      (fun n => n.add_edge df.data true)) df.triple
      (fun n => n.add_edge tf.data false)) = triples g := by
    rw [triples_graphModify_add_edge, triples_graphModify_add_edge]
  have hT : ∀ a : FuncNode, (recordStep tf df a).triple = a.triple := by
    intro a
    simp only [recordStep]
    by_cases h1 : a.triple = tf.triple
    · rw [if_pos h1]
      by_cases h2 : (a.add_edge df.data true).triple = df.triple
      · rw [if_pos h2, add_edge_triple, add_edge_triple]
      · rw [if_neg h2, add_edge_triple]
    · rw [if_neg h1]
      by_cases h2 : a.triple = df.triple
      · rw [if_pos h2, add_edge_triple]
      · rw [if_neg h2]
  have hDeps : ∀ (a : FuncNode) (x : String × String × String),
      x ∈ dataTriples (recordStep tf df a).dependencies ↔
        x ∈ dataTriples a.dependencies ∨ (a.triple = tf.triple ∧ x = df.triple) := by
    intro a x
    simp only [recordStep]
    by_cases h1 : a.triple = tf.triple
    · rw [if_pos h1]
      by_cases h2 : (a.add_edge df.data true).triple = df.triple
      · rw [if_pos h2, dependencies_add_edge_false, dependencies_add_edge_true,
          mem_dataTriples_insertData]
        constructor
        · rintro (hx | rfl)
          · exact Or.inl hx
          · exact Or.inr ⟨h1, rfl⟩
        · rintro (hx | ⟨he, rfl⟩)
          · exact Or.inl hx
          · exact Or.inr rfl
      · rw [if_neg h2, dependencies_add_edge_true, mem_dataTriples_insertData]
        constructor
        · rintro (hx | rfl)
          · exact Or.inl hx
          · exact Or.inr ⟨h1, rfl⟩
        · rintro (hx | ⟨he, rfl⟩)
          · exact Or.inl hx
          · exact Or.inr rfl
    · rw [if_neg h1]
      by_cases h2 : a.triple = df.triple
      · rw [if_pos h2, dependencies_add_edge_false]
        constructor
        · exact Or.inl
        · rintro (hx | ⟨he, rfl⟩)
          · exact hx
          · exact absurd he h1
      · rw [if_neg h2]
        constructor
        · exact Or.inl
        · rintro (hx | ⟨he, rfl⟩)
          · exact hx
          · exact absurd he h1
  have hDepd : ∀ (a : FuncNode) (x : String × String × String),
      x ∈ dataTriples (recordStep tf df a).dependents ↔
        x ∈ dataTriples a.dependents ∨ (a.triple = df.triple ∧ x = tf.triple) := by
    intro a x
    simp only [recordStep]
    by_cases h1 : a.triple = tf.triple
    · rw [if_pos h1]
      by_cases h2 : (a.add_edge df.data true).triple = df.triple
      · rw [add_edge_triple] at h2
        rw [if_pos (by rw [add_edge_triple]; exact h2), dependents_add_edge_false,
          dependents_add_edge_true, mem_dataTriples_insertData]
        constructor
        · rintro (hx | rfl)
          · exact Or.inl hx
          · exact Or.inr ⟨h2, rfl⟩
        · rintro (hx | ⟨he, rfl⟩)
          · exact Or.inl hx
          · exact Or.inr rfl
      · rw [add_edge_triple] at h2
        rw [if_neg (by rw [add_edge_triple]; exact h2), dependents_add_edge_true]
        constructor
        · exact Or.inl
        · rintro (hx | ⟨he, rfl⟩)
          · exact hx
          · exact absurd he h2
    · rw [if_neg h1]
      by_cases h2 : a.triple = df.triple
      · rw [if_pos h2, dependents_add_edge_false, mem_dataTriples_insertData]
        constructor
        · rintro (hx | rfl)
          · exact Or.inl hx
          · exact Or.inr ⟨h2, rfl⟩
        · rintro (hx | ⟨he, rfl⟩)
          · exact Or.inl hx
          · exact Or.inr rfl
      · rw [if_neg h2]
        constructor
        · exact Or.inl
        · rintro (hx | ⟨he, rfl⟩)
          · exact hx
          · exact absurd he h2
  rw [hg'] at hTr ⊢
  refine ⟨?_, ?_, ?_, ?_⟩
  · rw [List.pairwise_map]
    refine hg.1.imp ?_
    intro a b hab
    rw [hT a, hT b]
    exact hab
  · intro a' ha' x hx
    obtain ⟨a, ha, rfl⟩ := List.mem_map.1 ha'
    rw [hTr]
    rcases (hDeps a x).1 hx with hx' | ⟨he, rfl⟩
    · exact hg.2.1 a ha x hx'
    · exact hd
  · intro a' ha' x hx
    obtain ⟨a, ha, rfl⟩ := List.mem_map.1 ha'
    rw [hTr]
    rcases (hDepd a x).1 hx with hx' | ⟨he, rfl⟩
    · exact hg.2.2.1 a ha x hx'
    · exact ht
  · intro a' ha' b' hb'
    obtain ⟨a, ha, rfl⟩ := List.mem_map.1 ha'
    obtain ⟨b, hb, rfl⟩ := List.mem_map.1 hb'
    rw [hT a, hT b, hDeps a b.triple, hDepd b a.triple]
    exact or_congr (hg.2.2.2 a ha b hb) and_comm

theorem freshOrMem_shape (g : List FuncNode) (n : FuncNode) (h : freshOrMem g n) :
    (n.dependencies = [] ∧ n.dependents = []) ∨ n.triple ∈ triples g := by
  rcases h with h | h
  · exact Or.inl h
  · exact Or.inr ((mem_triples g n.triple).2 ⟨n, h, rfl⟩)

theorem WFGraph_detector_add_edge (g : List FuncNode) (b : Bool) (dep : String)
    (t : FuncNode) (dn : Option FuncNode) (hg : WFGraph g)
    (ht : freshOrMem g t) (hd : ∀ d, dn = some d → freshOrMem g d) :
    WFGraph (detector_add_edge g b dep t dn) := by
  cases dn with
  | none =>
    rw [detector_add_edge_none_eq]
    have hw1 : WFGraph (add_node g t) := WFGraph_add_node g t hg (freshOrMem_shape g t ht)
    have hw2 : WFGraph (add_node (add_node g t) (mkPlaceholder b dep)) :=
      WFGraph_add_node _ _ hw1 (Or.inl (mkPlaceholder_edges b dep))
    have htm : t.triple ∈ triples (add_node (add_node g t) (mkPlaceholder b dep)) :=
      (mem_triples_add_node _ _ _).2
        (Or.inl ((mem_triples_add_node _ _ _).2 (Or.inr rfl)))
    have hpm : (mkPlaceholder b dep).triple ∈
        triples (add_node (add_node g t) (mkPlaceholder b dep)) :=
      (mem_triples_add_node _ _ _).2 (Or.inr rfl)
    exact WFGraph_record_edge _ t (mkPlaceholder b dep) hw2 htm hpm
  | some d =>
    rw [detector_add_edge_some_eq]
    have hw1 : WFGraph (add_node g t) := WFGraph_add_node g t hg (freshOrMem_shape g t ht)
    have hw2 : WFGraph (add_node (add_node g t) d) := by
      refine WFGraph_add_node _ _ hw1 ?_
      rcases freshOrMem_shape g d (hd d rfl) with h | h
      · exact Or.inl h
      · exact Or.inr ((mem_triples_add_node _ _ _).2 (Or.inl h))
    have htm : t.triple ∈ triples (add_node (add_node g t) d) :=
      (mem_triples_add_node _ _ _).2
        (Or.inl ((mem_triples_add_node _ _ _).2 (Or.inr rfl)))
    have hdm : d.triple ∈ triples (add_node (add_node g t) d) :=
      (mem_triples_add_node _ _ _).2 (Or.inr rfl)
    exact WFGraph_record_edge _ t d hw2 htm hdm

theorem WFGraph_applyOps (ops : List GraphOp) (g : List FuncNode)
    (hops : OpsWF g ops) (hg : WFGraph g) : WFGraph (applyOps g ops) := by
  induction ops generalizing g with
  | nil => exact hg
  | cons op ops ih =>
    rw [applyOps, List.foldl_cons]
    have h1 : WFGraph (applyOp g op) := by
      cases op with
      | register n => exact WFGraph_add_node g n hg (Or.inl hops.1)
      | addEdge b dep t dn =>
        exact WFGraph_detector_add_edge g b dep t dn hg hops.1.1 hops.1.2
    exact ih (applyOp g op) hops.2 h1

/-- C6: edge-set symmetry. Starting from a well-formed graph, after any
sequence of node registrations and edge recordings whose arguments are as
the program produces them, the graph remains well formed: for all stored
nodes a and b, b is in a's callee set exactly when a is in b's caller set
(membership up to the identity triple), and every entry of every edge set
names a registered node. -/
theorem edge_sets_symmetric (ops : List GraphOp) (g : List FuncNode)
    (hg : WFGraph g) (hops : OpsWF g ops) :
    (∀ a ∈ applyOps g ops, ∀ b ∈ applyOps g ops,
      (b.triple ∈ dataTriples a.dependencies ↔ a.triple ∈ dataTriples b.dependents)) ∧
    (∀ a ∈ applyOps g ops, ∀ x ∈ dataTriples a.dependencies,
      x ∈ triples (applyOps g ops)) ∧
    (∀ a ∈ applyOps g ops, ∀ x ∈ dataTriples a.dependents,
      x ∈ triples (applyOps g ops)) := by
  have h := WFGraph_applyOps ops g hops hg
  exact ⟨h.2.2.2, h.2.1, h.2.2.1⟩

/-- Witness for C6 at a concrete input: after registering the node of f
in a.py and recording its call to the unresolved name gg, the caller
holds the placeholder in its callee set exactly as the placeholder holds
the caller in its caller set. -/
theorem edge_sets_symmetric_witness :
    ((⟨⟨"Unknown", "Unknown", "gg", 1⟩, [], [⟨"a.py", "", "f", 0⟩], none⟩ :
        FuncNode).triple ∈ dataTriples
        (⟨⟨"a.py", "", "f", 0⟩, [⟨"Unknown", "Unknown", "gg", 1⟩], [], none⟩ :
          FuncNode).dependencies ↔
      (⟨⟨"a.py", "", "f", 0⟩, [⟨"Unknown", "Unknown", "gg", 1⟩], [], none⟩ :
        FuncNode).triple ∈ dataTriples
        (⟨⟨"Unknown", "Unknown", "gg", 1⟩, [], [⟨"a.py", "", "f", 0⟩], none⟩ :
          FuncNode).dependents) :=
  (edge_sets_symmetric
    [GraphOp.register ⟨⟨"a.py", "", "f", 0⟩, [], [], none⟩,
     GraphOp.addEdge false "gg" ⟨⟨"a.py", "", "f", 0⟩, [], [], none⟩ none] []
    ⟨List.Pairwise.nil, by simp [triples], by simp [triples], by simp⟩
    ⟨⟨rfl, rfl⟩, ⟨Or.inl ⟨rfl, rfl⟩, fun d h => Option.noConfusion h⟩, trivial⟩).1
    ⟨⟨"a.py", "", "f", 0⟩, [⟨"Unknown", "Unknown", "gg", 1⟩], [], none⟩ (by decide)
    ⟨⟨"Unknown", "Unknown", "gg", 1⟩, [], [⟨"a.py", "", "f", 0⟩], none⟩ (by decide)
